import Mathlib

/-!
Shallow embedding of `src/cipher.py` (a generic Feistel block cipher) and
verification of its specified properties.

Byte sequences (`bytearray`) are modelled as `List Nat`; fallible Python
functions (those that can `raise`) return `Except String _`.
-/

namespace Cipher

/-- `BLK_SIZE = 32` from `cipher.py`. -/
def BLK_SIZE : Nat := 32

/-- Embedding of `xor(a, b)`: `bytearray([ai ^ bi for (ai, bi) in zip(a, b)])`.
Python's `zip` truncates to the shorter input. -/
def xor (a b : List Nat) : List Nat :=
  (List.zip a b).map (fun p => Nat.xor p.1 p.2)

/-- Embedding of `round(data, F)`: raises on odd length (`L & 1`), otherwise
returns `right + xor(left, F(right))` with `left = data[:L//2]`,
`right = data[L//2:]`. -/
def round (data : List Nat) (F : List Nat → List Nat) : Except String (List Nat) :=
  let L := data.length
  if L % 2 = 1 then
    Except.error ("Invalid data size: " ++ toString L)
  else
    Except.ok (data.drop (L / 2) ++ xor (data.take (L / 2)) (F (data.drop (L / 2))))

/-- Embedding of `flip(data)`: `data[l//2:] + data[:l//2]`. -/
def flip (data : List Nat) : List Nat :=
  data.drop (data.length / 2) ++ data.take (data.length / 2)

/-- Embedding of `pad(data)`: `m = BLK_SIZE - len(data) % BLK_SIZE`;
returns `data + bytearray([m] * m)`. -/
def pad (data : List Nat) : List Nat :=
  let m := BLK_SIZE - data.length % BLK_SIZE
  data ++ List.replicate m m

/-- Embedding of `unpad(data)`: empty input returned unchanged, otherwise
`data[:-data[-1]]`.  Python's slice `data[:-m]` is `data[:len(data)-m]`
when `m >= 1` (clamped at 0), but is `data[:0] = b""` when `m = 0`. -/
def unpad (data : List Nat) : List Nat :=
  match data.getLast? with
  | none => data
  | some m => if m = 0 then [] else data.take (data.length - m)

/-- Helper for the block splitter: consumes `BLK_SIZE` bytes per step.  The
fuel argument only bounds the number of steps (the Python loop
`range(0, len(data), BLK_SIZE)` runs at most `len(data)` iterations); it
never alters the result when it is at least `data.length`. -/
def toBlocksAux : Nat → List Nat → List (List Nat)
  | 0, _ => []
  | fuel + 1, data =>
    if data.length = 0 then []
    else data.take BLK_SIZE :: toBlocksAux fuel (data.drop BLK_SIZE)

/-- The block splitter inside `crypt`:
`[data[i : i + BLK_SIZE] for i in range(0, len(data), BLK_SIZE)]`. -/
def toBlocks (data : List Nat) : List (List Nat) :=
  toBlocksAux data.length data

/-- The inner loop of `crypt`: `for _ in range(r): blk = round(blk, F)`,
with a raised exception propagating out. -/
def iterateRound : Nat → List Nat → (List Nat → List Nat) → Except String (List Nat)
  | 0, blk, _ => Except.ok blk
  | n + 1, blk, F =>
    match round blk F with
    | Except.error e => Except.error e
    | Except.ok b => iterateRound n b F

/-- The outer loop of `crypt`: for each block run `r` rounds then `flip`,
accumulating `res = res + flip(blk)` left to right. -/
def cryptBlocks : List (List Nat) → (List Nat → List Nat) → Nat → Except String (List Nat)
  | [], _, _ => Except.ok []
  | blk :: rest, F, r =>
    match iterateRound r blk F with
    | Except.error e => Except.error e
    | Except.ok b =>
      match cryptBlocks rest F r with
      | Except.error e => Except.error e
      | Except.ok res => Except.ok (flip b ++ res)

/-- Embedding of `crypt(data, F, decrypt, r)`. -/
def crypt (data : List Nat) (F : List Nat → List Nat) (decrypt : Bool) (r : Nat) :
    Except String (List Nat) :=
  let d := if decrypt then data else pad data
  match cryptBlocks (toBlocks d) F r with
  | Except.error e => Except.error e
  | Except.ok res => Except.ok (if decrypt then unpad res else res)

/-- The pure value computed by one successful `round`: the Feistel round
transform Ψ. -/
def psi (F : List Nat → List Nat) (b : List Nat) : List Nat :=
  b.drop (b.length / 2) ++ xor (b.take (b.length / 2)) (F (b.drop (b.length / 2)))

/-! ### Basic lemmas about the primitives -/

theorem xor_length (a b : List Nat) : (xor a b).length = min a.length b.length := by
  simp [xor, List.length_zip]

theorem xor_getD (a b : List Nat) (i : Nat) (ha : i < a.length) (hb : i < b.length) :
    (xor a b).getD i 0 = Nat.xor (a.getD i 0) (b.getD i 0) := by
  have hi : i < (List.zip a b).length := by
    rw [List.length_zip]; omega
  simp only [xor, List.getD_eq_getElem?_getD, List.getElem?_map,
    List.getElem?_zip_eq_some]
  rw [List.getElem?_eq_getElem hi, List.getElem?_eq_getElem ha, List.getElem?_eq_getElem hb]
  simp [List.getElem_zip]

theorem xor_xor_cancel : ∀ (a b : List Nat), a.length ≤ b.length → xor (xor a b) b = a
  | [], _, _ => by simp [xor]
  | _ :: _, [], h => by simp at h
  | x :: a, y :: b, h => by
    simp only [xor, List.zip_cons_cons, List.map_cons] at *
    refine congrArg₂ _ (Nat.xor_cancel_right y x) ?_
    have := xor_xor_cancel a b (by simpa using h)
    simpa [xor] using this

theorem flip_append (A B : List Nat) (h : A.length = B.length) :
    flip (A ++ B) = B ++ A := by
  have hl : (A ++ B).length / 2 = A.length := by
    simp only [List.length_append, h]; omega
  simp only [flip]
  rw [hl, List.drop_left, List.take_left]

theorem flip_length (b : List Nat) : (flip b).length = b.length := by
  simp [flip, List.length_take, List.length_drop]; omega

theorem flip_flip (b : List Nat) (h : b.length % 2 = 0) : flip (flip b) = b := by
  have hA : (b.take (b.length / 2)).length = b.length / 2 := by
    simp [List.length_take]; omega
  have hB : (b.drop (b.length / 2)).length = b.length / 2 := by
    simp [List.length_drop]; omega
  calc flip (flip b) = flip (b.drop (b.length / 2) ++ b.take (b.length / 2)) := rfl
    _ = b.take (b.length / 2) ++ b.drop (b.length / 2) := by
        exact flip_append _ _ (by rw [hA, hB])
    _ = b := List.take_append_drop _ b

theorem pad_eq (d : List Nat) :
    pad d = d ++ List.replicate (BLK_SIZE - d.length % BLK_SIZE) (BLK_SIZE - d.length % BLK_SIZE) :=
  rfl

theorem pad_m_pos (d : List Nat) : 1 ≤ BLK_SIZE - d.length % BLK_SIZE := by
  have : d.length % BLK_SIZE < BLK_SIZE := Nat.mod_lt _ (by simp [BLK_SIZE])
  omega

theorem pad_length (d : List Nat) :
    (pad d).length = d.length + (BLK_SIZE - d.length % BLK_SIZE) := by
  simp [pad]

theorem pad_length_mod (d : List Nat) : (pad d).length % BLK_SIZE = 0 := by
  rw [pad_length]; simp only [BLK_SIZE]; omega

theorem pad_getLast? (d : List Nat) :
    (pad d).getLast? = some (BLK_SIZE - d.length % BLK_SIZE) := by
  set m := BLK_SIZE - d.length % BLK_SIZE with hm
  have hm1 : 1 ≤ m := pad_m_pos d
  obtain ⟨n, hn⟩ : ∃ n, m = n + 1 := ⟨m - 1, by omega⟩
  have hrep : List.replicate m m = List.replicate n m ++ [m] := by
    rw [hn]; exact List.replicate_succ' n (n + 1)
  rw [pad_eq, ← hm, hrep, ← List.append_assoc]
  simp [List.getLast?_concat]

theorem unpad_pad (d : List Nat) : unpad (pad d) = d := by
  set m := BLK_SIZE - d.length % BLK_SIZE with hm
  have hm1 : 1 ≤ m := pad_m_pos d
  have hlast : (pad d).getLast? = some m := by rw [pad_getLast?]
  simp only [unpad, hlast]
  rw [if_neg (by omega)]
  have hlen : (pad d).length - m = d.length := by
    rw [pad_length, ← hm]; omega
  rw [hlen, pad_eq, ← hm]
  exact List.take_left' rfl

/-! ### The round transform Ψ and its algebraic inverse -/

theorem round_eq_psi (b : List Nat) (F : List Nat → List Nat) (h : b.length % 2 = 0) :
    round b F = Except.ok (psi F b) := by
  simp only [round, psi]
  rw [if_neg (by omega)]

theorem round_odd (b : List Nat) (F : List Nat → List Nat) (h : b.length % 2 = 1) :
    round b F = Except.error ("Invalid data size: " ++ toString b.length) := by
  simp only [round]
  rw [if_pos h]

/-- Ψ on a split block: `psi F (l ++ r) = r ++ xor l (F r)` when the halves
have equal length. -/
theorem psi_append (F : List Nat → List Nat) (l r : List Nat) (h : l.length = r.length) :
    psi F (l ++ r) = r ++ xor l (F r) := by
  have hl : (l ++ r).length / 2 = l.length := by
    simp only [List.length_append, h]; omega
  simp only [psi]
  rw [hl, List.drop_left, List.take_left]

theorem psi_length (F : List Nat → List Nat) (b : List Nat) (HALF : Nat)
    (hb : b.length = 2 * HALF) (hF : (F (b.drop (b.length / 2))).length = HALF) :
    (psi F b).length = b.length := by
  simp only [psi, List.length_append, xor_length, List.length_take, List.length_drop]
  omega

/-- One round undone: `psi F (flip (psi F b)) = flip b` for an evenly split
block whose mixing output has the half length. -/
theorem psi_flip_psi (F : List Nat → List Nat) (b : List Nat) (HALF : Nat)
    (hb : b.length = 2 * HALF) (hF : ∀ x : List Nat, x.length = HALF → (F x).length = HALF) :
    psi F (flip (psi F b)) = flip b := by
  set l := b.take (b.length / 2) with hldef
  set r := b.drop (b.length / 2) with hrdef
  have hhalf : b.length / 2 = HALF := by omega
  have hlen_l : l.length = HALF := by
    rw [hldef, List.length_take]; omega
  have hlen_r : r.length = HALF := by
    rw [hrdef, List.length_drop]; omega
  have hsplit : b = l ++ r := (List.take_append_drop _ b).symm
  have hFr : (F r).length = HALF := hF r hlen_r
  have hxlen : (xor l (F r)).length = HALF := by
    rw [xor_length, hlen_l, hFr]; omega
  have h1 : psi F b = r ++ xor l (F r) := by
    rw [hsplit] at hhalf ⊢
    exact psi_append F l r (by omega)
  have h2 : flip (psi F b) = xor l (F r) ++ r := by
    rw [h1]; exact flip_append r _ (by omega)
  have h3 : psi F (flip (psi F b)) = r ++ xor (xor l (F r)) (F r) := by
    rw [h2]; exact psi_append F _ r (by omega)
  rw [h3, xor_xor_cancel l (F r) (by omega), hsplit]
  exact (flip_append l r (by omega)).symm

/-- Iterating Ψ preserves the block length. -/
theorem psi_iterate_length (F : List Nat → List Nat) (HALF : Nat)
    (hF : ∀ x : List Nat, x.length = HALF → (F x).length = HALF) :
    ∀ (n : Nat) (b : List Nat), b.length = 2 * HALF → ((psi F)^[n] b).length = 2 * HALF
  | 0, b, hb => hb
  | n + 1, b, hb => by
    rw [Function.iterate_succ_apply]
    have hr : (b.drop (b.length / 2)).length = HALF := by
      rw [List.length_drop]; omega
    have : (psi F b).length = b.length :=
      psi_length F b HALF hb (hF _ hr)
    exact psi_iterate_length F HALF hF n (psi F b) (by omega)

/-- The iterated inverse identity: `Ψ^[n] (flip (Ψ^[n] b)) = flip b`. -/
theorem psi_iterate_flip (F : List Nat → List Nat) (HALF : Nat)
    (hF : ∀ x : List Nat, x.length = HALF → (F x).length = HALF) :
    ∀ (n : Nat) (b : List Nat), b.length = 2 * HALF →
      (psi F)^[n] (flip ((psi F)^[n] b)) = flip b
  | 0, _, _ => rfl
  | n + 1, b, hb => by
    have hc : ((psi F)^[n] b).length = 2 * HALF := psi_iterate_length F HALF hF n b hb
    rw [Function.iterate_succ_apply, Function.iterate_succ_apply']
    rw [psi_flip_psi F ((psi F)^[n] b) HALF hc hF]
    exact psi_iterate_flip F HALF hF n b hb

/-! ### The driver loops -/

theorem iterateRound_eq (F : List Nat → List Nat) (HALF : Nat)
    (hF : ∀ x : List Nat, x.length = HALF → (F x).length = HALF) :
    ∀ (r : Nat) (b : List Nat), b.length = 2 * HALF →
      iterateRound r b F = Except.ok ((psi F)^[r] b)
  | 0, _, _ => rfl
  | r + 1, b, hb => by
    have heven : b.length % 2 = 0 := by omega
    have h1 : round b F = Except.ok (psi F b) := round_eq_psi b F heven
    have hr' : (b.drop (b.length / 2)).length = HALF := by
      simp only [List.length_drop]; omega
    have hlen : (psi F b).length = 2 * HALF := by
      have := psi_length F b HALF hb (hF _ hr')
      omega
    simp only [iterateRound, h1]
    rw [iterateRound_eq F HALF hF r (psi F b) hlen, Function.iterate_succ_apply]

theorem cryptBlocks_ok (F : List Nat → List Nat) (r : Nat)
    (hF : ∀ x : List Nat, x.length = 16 → (F x).length = 16) :
    ∀ blks : List (List Nat), (∀ b ∈ blks, b.length = BLK_SIZE) →
      cryptBlocks blks F r =
        Except.ok ((blks.map (fun b => flip ((psi F)^[r] b))).flatten)
  | [], _ => by simp [cryptBlocks]
  | blk :: rest, h => by
    have hblk : blk.length = 2 * 16 := by
      have := h blk (by simp)
      simpa [BLK_SIZE] using this
    have h1 : iterateRound r blk F = Except.ok ((psi F)^[r] blk) :=
      iterateRound_eq F 16 hF r blk hblk
    have h2 := cryptBlocks_ok F r hF rest (fun b hb => h b (by simp [hb]))
    simp [cryptBlocks, h1, h2]

theorem toBlocksAux_nil : ∀ fuel : Nat, toBlocksAux fuel [] = []
  | 0 => rfl
  | _ + 1 => rfl

theorem toBlocksAux_congr : ∀ (f1 f2 : Nat) (data : List Nat),
    data.length ≤ f1 → data.length ≤ f2 → toBlocksAux f1 data = toBlocksAux f2 data
  | 0, _, data, h1, _ => by
    have hd : data = [] := List.length_eq_zero.mp (by omega)
    rw [hd, toBlocksAux_nil, toBlocksAux_nil]
  | _ + 1, 0, data, _, h2 => by
    have hd : data = [] := List.length_eq_zero.mp (by omega)
    rw [hd, toBlocksAux_nil, toBlocksAux_nil]
  | f1 + 1, f2 + 1, data, h1, h2 => by
    by_cases h : data.length = 0
    · simp [toBlocksAux, h]
    · simp only [toBlocksAux, if_neg h]
      congr 1
      exact toBlocksAux_congr f1 f2 (data.drop BLK_SIZE)
        (by simp only [List.length_drop, BLK_SIZE]; omega)
        (by simp only [List.length_drop, BLK_SIZE]; omega)

theorem toBlocks_nil : toBlocks [] = [] := rfl

theorem toBlocks_block_cons (b rest : List Nat) (hb : b.length = BLK_SIZE) :
    toBlocks (b ++ rest) = b :: toBlocks rest := by
  show toBlocksAux (b ++ rest).length (b ++ rest) = b :: toBlocksAux rest.length rest
  have hlen : (b ++ rest).length = rest.length + 31 + 1 := by
    simp only [List.length_append, hb, BLK_SIZE]; omega
  rw [hlen]
  simp only [toBlocksAux]
  rw [if_neg (by simp [hb, BLK_SIZE])]
  rw [List.take_left' hb, List.drop_left' hb]
  congr 1
  exact toBlocksAux_congr (rest.length + 31) rest.length rest (by omega) (by omega)

theorem toBlocks_flatten : ∀ blks : List (List Nat),
    (∀ b ∈ blks, b.length = BLK_SIZE) → toBlocks blks.flatten = blks
  | [], _ => toBlocks_nil
  | blk :: rest, h => by
    rw [List.flatten_cons, toBlocks_block_cons blk _ (h blk (by simp))]
    rw [toBlocks_flatten rest (fun b hb => h b (by simp [hb]))]

theorem exists_blocks_aux : ∀ (k : Nat) (x : List Nat), x.length = BLK_SIZE * k →
    ∃ blks : List (List Nat), x = blks.flatten ∧ ∀ b ∈ blks, b.length = BLK_SIZE
  | 0, x, hx => by
    have : x = [] := List.length_eq_zero.mp (by simpa using hx)
    exact ⟨[], by simp [this], by simp⟩
  | k + 1, x, hx => by
    have h32 : BLK_SIZE ≤ x.length := by
      simp only [BLK_SIZE] at hx ⊢; omega
    have hdrop : (x.drop BLK_SIZE).length = BLK_SIZE * k := by
      simp only [List.length_drop, BLK_SIZE] at hx ⊢; omega
    obtain ⟨blks, hb1, hb2⟩ := exists_blocks_aux k (x.drop BLK_SIZE) hdrop
    refine ⟨x.take BLK_SIZE :: blks, ?_, ?_⟩
    · rw [List.flatten_cons, ← hb1, List.take_append_drop]
    · intro b hb
      rcases List.mem_cons.mp hb with h | h
      · rw [h, List.length_take]; omega
      · exact hb2 b h

theorem exists_blocks (x : List Nat) (hx : x.length % BLK_SIZE = 0) :
    ∃ blks : List (List Nat), x = blks.flatten ∧ ∀ b ∈ blks, b.length = BLK_SIZE :=
  exists_blocks_aux (x.length / BLK_SIZE) x
    (by rw [Nat.mul_div_cancel' (Nat.dvd_of_mod_eq_zero hx)])

theorem crypt_encrypt_ok (d : List Nat) (F : List Nat → List Nat) (r : Nat)
    (res : List Nat) (h : cryptBlocks (toBlocks (pad d)) F r = Except.ok res) :
    crypt d F false r = Except.ok res := by
  simp [crypt, h]

theorem crypt_decrypt_ok (d : List Nat) (F : List Nat → List Nat) (r : Nat)
    (res : List Nat) (h : cryptBlocks (toBlocks d) F r = Except.ok res) :
    crypt d F true r = Except.ok (unpad res) := by
  simp [crypt, h]

theorem crypt_decrypt_err (d : List Nat) (F : List Nat → List Nat) (r : Nat)
    (e : String) (h : cryptBlocks (toBlocks d) F r = Except.error e) :
    crypt d F true r = Except.error e := by
  simp [crypt, h]

/-- The per-block transform applied by `crypt` (`r` rounds then `flip`)
preserves the block length. -/
theorem block_transform_length (F : List Nat → List Nat) (r : Nat)
    (hF : ∀ x : List Nat, x.length = 16 → (F x).length = 16)
    (b : List Nat) (hb : b.length = BLK_SIZE) :
    (flip ((psi F)^[r] b)).length = BLK_SIZE := by
  rw [flip_length]
  have := psi_iterate_length F 16 hF r b (by rw [hb]; rfl)
  rw [this]; rfl

/-- The per-block transform of `crypt` is an involution on full blocks. -/
theorem block_transform_involutive (F : List Nat → List Nat) (r : Nat)
    (hF : ∀ x : List Nat, x.length = 16 → (F x).length = 16)
    (b : List Nat) (hb : b.length = BLK_SIZE) :
    flip ((psi F)^[r] (flip ((psi F)^[r] b))) = b := by
  rw [psi_iterate_flip F 16 hF r b (by rw [hb]; rfl)]
  exact flip_flip b (by rw [hb]; rfl)

/-! ### Behaviour of decryption on inputs of arbitrary length -/

theorem psi_length_le (F : List Nat → List Nat) (b : List Nat)
    (hF : ∀ x : List Nat, (F x).length = 16)
    (hL : b.length ≤ BLK_SIZE) : (psi F b).length = b.length := by
  simp only [psi, List.length_append, xor_length, List.length_take, List.length_drop, hF]
  simp only [BLK_SIZE] at hL
  omega

theorem iterateRound_ok_even (F : List Nat → List Nat)
    (hF : ∀ x : List Nat, (F x).length = 16) :
    ∀ (r : Nat) (b : List Nat), b.length % 2 = 0 → b.length ≤ BLK_SIZE →
      iterateRound r b F = Except.ok ((psi F)^[r] b)
  | 0, _, _, _ => rfl
  | r + 1, b, he, hL => by
    have h1 : round b F = Except.ok (psi F b) := round_eq_psi b F he
    have hlen : (psi F b).length = b.length := psi_length_le F b hF hL
    simp only [iterateRound, h1]
    rw [iterateRound_ok_even F hF r (psi F b) (by omega) (by omega),
      Function.iterate_succ_apply]

theorem iterateRound_err_odd (F : List Nat → List Nat) (r : Nat) (b : List Nat)
    (ho : b.length % 2 = 1) (hr : 1 ≤ r) :
    iterateRound r b F = Except.error ("Invalid data size: " ++ toString b.length) := by
  obtain ⟨r', rfl⟩ : ∃ r', r = r' + 1 := ⟨r - 1, by omega⟩
  simp only [iterateRound, round_odd b F ho]

theorem cryptBlocks_ok_iff (F : List Nat → List Nat) (r : Nat) :
    ∀ blks : List (List Nat),
      (∃ v, cryptBlocks blks F r = Except.ok v) ↔
        ∀ b ∈ blks, ∃ w, iterateRound r b F = Except.ok w
  | [] => by simp [cryptBlocks]
  | blk :: rest => by
    constructor
    · rintro ⟨v, hv⟩ b hb
      simp only [cryptBlocks] at hv
      rcases h1 : iterateRound r blk F with e | w1
      · rw [h1] at hv; exact absurd hv (by simp)
      · rw [h1] at hv
        rcases List.mem_cons.mp hb with rfl | hbr
        · exact ⟨w1, h1⟩
        · rcases h2 : cryptBlocks rest F r with e | w2
          · rw [h2] at hv; exact absurd hv (by simp)
          · exact ((cryptBlocks_ok_iff F r rest).mp ⟨w2, h2⟩) b hbr
    · intro h
      obtain ⟨w1, h1⟩ := h blk (by simp)
      obtain ⟨w2, h2⟩ := (cryptBlocks_ok_iff F r rest).mpr
        (fun b hb => h b (by simp [hb]))
      exact ⟨flip w1 ++ w2, by simp only [cryptBlocks, h1, h2]⟩

theorem toBlocksAux_le : ∀ (fuel : Nat) (data : List Nat),
    ∀ b ∈ toBlocksAux fuel data, b.length ≤ BLK_SIZE
  | 0, _ => by simp [toBlocksAux]
  | fuel + 1, data => by
    by_cases h : data.length = 0
    · simp [toBlocksAux, h]
    · simp only [toBlocksAux, if_neg h]
      intro b hb
      rcases List.mem_cons.mp hb with rfl | hbr
      · rw [List.length_take]; omega
      · exact toBlocksAux_le fuel (data.drop BLK_SIZE) b hbr

theorem toBlocksAux_parity : ∀ (fuel : Nat) (data : List Nat), data.length ≤ fuel →
    ((∀ b ∈ toBlocksAux fuel data, b.length % 2 = 0) ↔ data.length % 2 = 0)
  | 0, data, h => by
    have hd : data = [] := List.length_eq_zero.mp (by omega)
    simp [hd, toBlocksAux]
  | fuel + 1, data, h => by
    by_cases h0 : data.length = 0
    · simp [toBlocksAux, h0]
    · simp only [toBlocksAux, if_neg h0]
      have ih := toBlocksAux_parity fuel (data.drop BLK_SIZE)
        (by simp only [List.length_drop, BLK_SIZE] at h ⊢; omega)
      constructor
      · intro hall
        have htake := hall (data.take BLK_SIZE) (by simp)
        have hdrop := ih.mp (fun b hb => hall b (by simp [hb]))
        rw [List.length_take] at htake
        rw [List.length_drop] at hdrop
        simp only [BLK_SIZE] at htake hdrop ⊢
        omega
      · intro hlen b hb
        rcases List.mem_cons.mp hb with rfl | hbr
        · rw [List.length_take]; simp only [BLK_SIZE]; omega
        · refine (ih.mpr ?_) b hbr
          rw [List.length_drop]; simp only [BLK_SIZE]; omega

theorem crypt_decrypt_ok_iff (d : List Nat) (F : List Nat → List Nat) (r : Nat) :
    (∃ v, crypt d F true r = Except.ok v) ↔
      (∃ w, cryptBlocks (toBlocks d) F r = Except.ok w) := by
  constructor
  · rintro ⟨v, hv⟩
    rcases h : cryptBlocks (toBlocks d) F r with e | w
    · rw [crypt_decrypt_err d F r e h] at hv
      exact absurd hv (by simp)
    · exact ⟨w, rfl⟩
  · rintro ⟨w, hw⟩
    exact ⟨unpad w, crypt_decrypt_ok d F r w hw⟩

/-! ### Claim theorems -/

/-- C2: for every `BLOCK_SIZE`-byte block `b`, mixing function `F` from 16
bytes to 16 bytes, and round count `r ≥ 1`, the per-block cipher is an
involution: `flip(Ψ^r(flip(Ψ^r(b)))) = b`, where `Ψ^r` is `r` applications
of the round transform (the inner loop of `crypt`). -/
theorem block_level_involution (b : List Nat) (F : List Nat → List Nat) (r : Nat)
    (hb : b.length = BLK_SIZE)
    (hF : ∀ x : List Nat, x.length = 16 → (F x).length = 16) (hr : 1 ≤ r) :
    ∃ c c', iterateRound r b F = Except.ok c ∧
      iterateRound r (flip c) F = Except.ok c' ∧ flip c' = b := by
  have hb' : b.length = 2 * 16 := by rw [hb]; rfl
  have h1 : iterateRound r b F = Except.ok ((psi F)^[r] b) :=
    iterateRound_eq F 16 hF r b hb'
  have hc : ((psi F)^[r] b).length = 2 * 16 := psi_iterate_length F 16 hF r b hb'
  have hflip : (flip ((psi F)^[r] b)).length = 2 * 16 := by
    rw [flip_length]; exact hc
  have h2 : iterateRound r (flip ((psi F)^[r] b)) F =
      Except.ok ((psi F)^[r] (flip ((psi F)^[r] b))) :=
    iterateRound_eq F 16 hF r _ hflip
  exact ⟨_, _, h1, h2, block_transform_involutive F r hF b hb⟩

/-- Witness for C2 at a concrete block, mixing function and round count. -/
theorem block_level_involution_witness :
    ∃ c c', iterateRound 1 (List.replicate 32 0) (fun x => x) = Except.ok c ∧
      iterateRound 1 (Cipher.flip c) (fun x => x) = Except.ok c' ∧
      Cipher.flip c' = List.replicate 32 0 :=
  block_level_involution (List.replicate 32 0) (fun x => x) 1
    (by simp [BLK_SIZE]) (fun x hx => hx) (Nat.le_refl 1)

/-- C1: for every byte sequence `d`, mixing function `F` from 16 bytes to 16
bytes, and round count `r ≥ 1`, decrypting the encryption of `d` returns `d`:
`crypt(crypt(d, F, false, r), F, true, r) = d`. -/
theorem crypt_involution (d : List Nat) (F : List Nat → List Nat) (r : Nat)
    (hF : ∀ x : List Nat, x.length = 16 → (F x).length = 16) (hr : 1 ≤ r) :
    ∃ e, crypt d F false r = Except.ok e ∧ crypt e F true r = Except.ok d := by
  obtain ⟨blks, hb1, hb2⟩ := exists_blocks (pad d) (pad_length_mod d)
  have hele : ∀ c ∈ blks.map (fun b => flip ((psi F)^[r] b)), c.length = BLK_SIZE := by
    intro c hc
    obtain ⟨b, hbmem, rfl⟩ := List.mem_map.mp hc
    exact block_transform_length F r hF b (hb2 b hbmem)
  have henc : crypt d F false r =
      Except.ok ((blks.map (fun b => flip ((psi F)^[r] b))).flatten) := by
    apply crypt_encrypt_ok
    rw [hb1, toBlocks_flatten blks hb2]
    exact cryptBlocks_ok F r hF blks hb2
  have hdec : crypt ((blks.map (fun b => flip ((psi F)^[r] b))).flatten) F true r =
      Except.ok d := by
    have hstep : cryptBlocks (toBlocks ((blks.map (fun b => flip ((psi F)^[r] b))).flatten)) F r =
        Except.ok (((blks.map (fun b => flip ((psi F)^[r] b))).map
          (fun b => flip ((psi F)^[r] b))).flatten) := by
      rw [toBlocks_flatten _ hele]
      exact cryptBlocks_ok F r hF _ hele
    have hmap : (blks.map (fun b => flip ((psi F)^[r] b))).map
        (fun b => flip ((psi F)^[r] b)) = blks := by
      rw [List.map_map]
      have : blks.map ((fun b => flip ((psi F)^[r] b)) ∘ (fun b => flip ((psi F)^[r] b))) =
          blks.map id :=
        List.map_congr_left (fun b hbmem =>
          block_transform_involutive F r hF b (hb2 b hbmem))
      rw [this, List.map_id]
    rw [hmap] at hstep
    have := crypt_decrypt_ok _ F r _ hstep
    rw [← hb1, unpad_pad] at this
    exact this
  exact ⟨_, henc, hdec⟩

/-- Witness for C1 at a concrete message, mixing function and round count. -/
theorem crypt_involution_witness :
    ∃ e, crypt [1, 2, 3] (fun x => x) false 1 = Except.ok e ∧
      crypt e (fun x => x) true 1 = Except.ok [1, 2, 3] :=
  crypt_involution [1, 2, 3] (fun x => x) 1 (fun _ hx => hx) (Nat.le_refl 1)

/-- C3: for every byte sequence `d`, stripping the padding that `pad` added
recovers `d` exactly: `unpad(pad(d)) = d`. -/
theorem padding_roundtrip (d : List Nat) : unpad (pad d) = d := unpad_pad d

/-- C4 counterexample: in the decrypt direction, an input of length 2 — not a
positive multiple of `BLK_SIZE` — is processed without any error instead of
failing with `InvalidInputLength`. -/
theorem crypt_decrypt_missing_check_counterexample :
    ([0, 0] : List Nat).length % BLK_SIZE ≠ 0 ∧
      crypt [0, 0] (fun _ => List.replicate 16 0) true 1 = Except.ok [] :=
  ⟨by decide, rfl⟩

/-- C4 amended: `crypt` performs no input-length validation in the decrypt
direction.  For a mixing function producing 16-byte outputs and `r ≥ 1`,
decryption succeeds exactly when the input length is even (in particular it
silently processes even lengths that are not positive multiples of
`BLK_SIZE`, including the empty input); an odd input length fails only via
the round transform's invalid-size error. -/
theorem crypt_decrypt_no_length_check (d : List Nat) (F : List Nat → List Nat) (r : Nat)
    (hF : ∀ x : List Nat, (F x).length = 16) (hr : 1 ≤ r) :
    (∃ v, crypt d F true r = Except.ok v) ↔ d.length % 2 = 0 := by
  rw [crypt_decrypt_ok_iff, cryptBlocks_ok_iff]
  constructor
  · intro h
    refine (toBlocksAux_parity d.length d (le_refl _)).mp ?_
    intro b hb
    by_contra hodd
    have ho : b.length % 2 = 1 := by omega
    obtain ⟨w, hw⟩ := h b hb
    rw [iterateRound_err_odd F r b ho hr] at hw
    exact absurd hw (by simp)
  · intro he b hb
    have hble : b.length ≤ BLK_SIZE := toBlocksAux_le d.length d b hb
    have hbe : b.length % 2 = 0 := (toBlocksAux_parity d.length d (le_refl _)).mpr he b hb
    exact ⟨_, iterateRound_ok_even F hF r b hbe hble⟩

/-- Witness for the amended C4 at a concrete non-block-multiple input. -/
theorem crypt_decrypt_no_length_check_witness :
    ∃ v, crypt [0, 0] (fun _ => List.replicate 16 0) true 1 = Except.ok v :=
  (crypt_decrypt_no_length_check [0, 0] (fun _ => List.replicate 16 0) 1
    (fun _ => by simp) (Nat.le_refl 1)).mpr (by decide)

/-- C5 counterexample: for `data = [0]` the last byte is `m = 0`, the claim
predicts the prefix `data[0 : 1 - 0] = [0]`, but the code (Python
`data[:-0]`) returns the empty sequence. -/
theorem unpad_zero_counterexample :
    unpad [0] ≠ List.take (([0] : List Nat).length - 0) [0] ∧ unpad [0] = [] :=
  ⟨by decide, rfl⟩

/-- C5 amended: `unpad` of the empty sequence is the empty sequence; for
non-empty `data` with last byte `m`, it returns `data[0 : len(data) - m]`
when `m ≠ 0`, but returns the empty sequence when `m = 0`. -/
theorem unpad_spec :
    unpad [] = [] ∧
    ∀ (d : List Nat) (m : Nat), d.getLast? = some m →
      unpad d = if m = 0 then [] else d.take (d.length - m) := by
  refine ⟨rfl, ?_⟩
  intro d m h
  simp only [unpad, h]

/-- Witness for the amended C5 at a concrete padded sequence. -/
theorem unpad_spec_witness :
    unpad [5, 3, 1] = if (1 : Nat) = 0 then [] else List.take (3 - 1) [5, 3, 1] :=
  unpad_spec.2 [5, 3, 1] 1 rfl

/-- C6: `pad` appends `m = BLK_SIZE - len(d) % BLK_SIZE` copies of the byte
`m`, with `1 ≤ m ≤ BLK_SIZE`; hence the padded length strictly grows, is a
multiple of `BLK_SIZE`, and a full block is appended when `len(d)` is
already block-aligned. -/
theorem pad_spec (d : List Nat) :
    pad d = d ++ List.replicate (BLK_SIZE - d.length % BLK_SIZE)
      (BLK_SIZE - d.length % BLK_SIZE) ∧
    1 ≤ BLK_SIZE - d.length % BLK_SIZE ∧
    BLK_SIZE - d.length % BLK_SIZE ≤ BLK_SIZE ∧
    d.length < (pad d).length ∧
    (pad d).length % BLK_SIZE = 0 ∧
    (d.length % BLK_SIZE = 0 → BLK_SIZE - d.length % BLK_SIZE = BLK_SIZE) := by
  refine ⟨rfl, pad_m_pos d, ?_, ?_, pad_length_mod d, ?_⟩
  · simp only [BLK_SIZE]; omega
  · rw [pad_length]; have := pad_m_pos d; omega
  · intro h; rw [h]; rfl

/-- Witness for C6 at the block-aligned empty input. -/
theorem pad_spec_witness :
    ([] : List Nat).length % BLK_SIZE = 0 ∧
      BLK_SIZE - ([] : List Nat).length % BLK_SIZE = BLK_SIZE :=
  ⟨rfl, (pad_spec []).2.2.2.2.2 rfl⟩

/-- C7: on a block of even length `L`, `round` returns
`right ++ xor left (F right)` with `left = block[0:L/2]`,
`right = block[L/2:L]` (pointwise, byte `i` of the xor part is
`left[i] XOR F(right)[i]`); on a block of odd length it fails with the
invalid-size error. -/
theorem round_spec (data : List Nat) (F : List Nat → List Nat)
    (hF : (F (data.drop (data.length / 2))).length = data.length / 2) :
    (data.length % 2 = 0 →
      round data F = Except.ok (data.drop (data.length / 2) ++
        xor (data.take (data.length / 2)) (F (data.drop (data.length / 2)))) ∧
      (xor (data.take (data.length / 2)) (F (data.drop (data.length / 2)))).length =
        data.length / 2 ∧
      (∀ i : Nat, i < data.length / 2 →
        (xor (data.take (data.length / 2)) (F (data.drop (data.length / 2)))).getD i 0 =
          Nat.xor (data.getD i 0) ((F (data.drop (data.length / 2))).getD i 0))) ∧
    (data.length % 2 = 1 →
      round data F = Except.error ("Invalid data size: " ++ toString data.length)) := by
  constructor
  · intro he
    have htl : (data.take (data.length / 2)).length = data.length / 2 := by
      rw [List.length_take]; omega
    refine ⟨round_eq_psi data F he, ?_, ?_⟩
    · rw [xor_length, htl, hF]; omega
    · intro i hi
      have h1 := xor_getD (data.take (data.length / 2)) (F (data.drop (data.length / 2))) i
        (by omega) (by rw [hF]; exact hi)
      rw [h1]
      have h2 : (data.take (data.length / 2)).getD i 0 = data.getD i 0 := by
        simp only [List.getD_eq_getElem?_getD]
        rw [List.getElem?_take_of_lt hi]
      rw [h2]
  · exact round_odd data F

/-- Witness for C7 at a concrete even-length block. -/
theorem round_spec_witness : round [1, 2] (fun x => x) = Except.ok [2, 3] :=
  ((round_spec [1, 2] (fun x => x) (by decide)).1 (by decide)).1

/-- C8: `flip` exchanges the first and second halves
(`flip(A ++ B) = B ++ A` for equal-length halves) and is self-inverse on
every even-length sequence. -/
theorem flip_spec (b : List Nat) (hb : b.length % 2 = 0) :
    flip (flip b) = b ∧ ∀ A B : List Nat, A.length = B.length → flip (A ++ B) = B ++ A :=
  ⟨flip_flip b hb, fun A B h => flip_append A B h⟩

/-- Witness for C8 at concrete blocks. -/
theorem flip_spec_witness :
    flip (flip [1, 2, 3, 4]) = [1, 2, 3, 4] ∧ flip ([9] ++ [7]) = [7] ++ [9] :=
  ⟨(flip_spec [1, 2, 3, 4] (by decide)).1,
    (flip_spec [1, 2, 3, 4] (by decide)).2 [9] [7] rfl⟩

/-- C9: `xor` returns the element-wise exclusive-or of its inputs; its length
is `min` of the input lengths, so equal-length inputs give the same length
back, while unequal lengths are silently truncated (no error is ever
raised — `xor` is a total function). -/
theorem xor_spec (a b : List Nat) :
    (xor a b).length = min a.length b.length ∧
    ∀ i : Nat, i < a.length → i < b.length →
      (xor a b).getD i 0 = Nat.xor (a.getD i 0) (b.getD i 0) :=
  ⟨xor_length a b, fun i ha hb => xor_getD a b i ha hb⟩

/-- Witness for C9 on concrete unequal-length inputs. -/
theorem xor_spec_witness :
    (xor [1, 2] [3]).length = 1 ∧ (xor [1, 2] [3]).getD 0 0 = 2 := by
  have h := xor_spec [1, 2] [3]
  exact ⟨h.1, h.2 0 (by decide) (by decide)⟩

/-- C10: decrypting the empty byte sequence returns the empty byte sequence
without error, for every mixing function and round count: the block loop
runs zero times and `unpad` of the empty sequence is empty. -/
theorem crypt_empty_decrypt (F : List Nat → List Nat) (r : Nat) :
    crypt [] F true r = Except.ok [] := rfl

end Cipher
